import Mathlib

/-!
Shallow embedding of the private-todo Electron main process
(src/unnamed/part_002, `main.js`): the encrypted persistence layer,
the session lock, the dataset merge and archive migration, and the
project/task mutators.  Timestamps are modelled as natural numbers
(ISO date strings compare chronologically), task ids as naturals,
project ids and names as strings.  External platform facilities
(Node crypto, keytar, Touch ID) are modelled at their interface,
as documented at each definition.
-/

namespace PrivateTodo

/-- Project record: `{ id, name, createdAt }` (main.js `project:add`). -/
structure Project where
  id : String
  name : String
  createdAt : Nat
deriving DecidableEq, Repr

/-- Task record as built by `task:add` in main.js. -/
structure Task where
  id : Nat
  title : String
  description : String
  projectId : String
  dueDate : Option Nat
  priority : Nat
  tags : List String
  completed : Bool
  dateCompleted : Option Nat
  createdAt : Nat
  updatedAt : Nat
deriving DecidableEq, Repr

/-- Dataset document: `{ version, createdAt, projects, tasks }`.
JS falsiness of a missing or zero `version` / `createdAt` is modelled
by the value 0. -/
structure DB where
  version : Nat
  createdAt : Nat
  projects : List Project
  tasks : List Task
deriving DecidableEq, Repr

/-- Whitespace test used by the JS string primitives below. -/
def isSpaceChar (c : Char) : Bool :=
  c == ' ' || c == '\t' || c == '\n' || c == '\r'

/-- JS `String.prototype.trim`: strip leading and trailing whitespace.
Modelled structurally over the character list so that it is
kernel-computable. -/
def jsTrim (s : String) : String :=
  ⟨((s.data.dropWhile isSpaceChar).reverse.dropWhile isSpaceChar).reverse⟩

/-- ASCII lowercasing of one character. -/
def lowerChar (c : Char) : Char :=
  if 65 ≤ c.toNat ∧ c.toNat ≤ 90 then Char.ofNat (c.toNat + 32) else c

/-- JS `String.prototype.toLowerCase` (ASCII fragment), modelled
structurally so that it is kernel-computable. -/
def jsToLower (s : String) : String :=
  ⟨s.data.map lowerChar⟩

/-- Source `defaultDB` (main.js): one `inbox` project, no tasks.
The module-load timestamp is a parameter. -/
def defaultDB (t0 : Nat) : DB :=
  { version := 1
    createdAt := t0
    projects := [{ id := "inbox", name := "Inbox", createdAt := t0 }]
    tasks := [] }

/-- Source `clampPriority` (main.js): `Number(p)` of an absent value is
NaN hence 0; otherwise floor and clamp into [0,3].  Nonnegative integer
inputs are modelled, so only the upper clamp is active. -/
def clampPriority (p : Option Nat) : Nat :=
  match p with
  | none => 0
  | some n => min n 3

/-- Source `sanitizeTags` (main.js): trim each tag, drop the ones that
became empty (`filter(Boolean)` removes the empty string), keep at
most 20.  Note: no deduplication happens. -/
def sanitizeTags (tags : List String) : List String :=
  ((tags.map jsTrim).filter (fun t => t ≠ "")).take 20

/-! ### AeadCodec (C3)

`encryptPayload` / `decryptPayload` in main.js call Node
`crypto.createCipheriv("aes-256-gcm", key, iv)`.  The cipher is
external library code; it is modelled structurally as what AES-GCM
is: a CTR-mode keystream XORed into the plaintext plus an
authentication tag computed over the ciphertext.  The block function
`blockMix` is a concrete executable stand-in for the AES block
cipher; the round-trip property depends only on the XOR-stream
structure, not on the block function.  The fresh random nonce is an
explicit parameter, and the JSON serialization boundary is abstracted:
the payload is the serialized byte string. -/

/-- Concrete stand-in for the AES-256 block computation producing one
keystream byte from key, nonce and counter. -/
def blockMix (key iv : List Nat) (ctr : Nat) : Nat :=
  ((key.foldl (fun a b => (a * 131 + b) % 65536) 17) +
   (iv.foldl (fun a b => (a * 257 + b) % 65536) 23) + ctr * 97) % 256

/-- CTR-mode keystream of `n` bytes. -/
def keystream (key iv : List Nat) (n : Nat) : List Nat :=
  (List.range n).map (blockMix key iv)

/-- GHASH-like authentication tag over the ciphertext. -/
def gcmTag (key iv ct : List Nat) : Nat :=
  ct.foldl (fun a b => (a * 263 + b) % 65536) (blockMix key iv 4660)

/-- Byte-wise XOR (Buffer XOR of equal-length buffers). -/
def xorBytes (a b : List Nat) : List Nat :=
  List.zipWith (fun x y => x ^^^ y) a b

/-- Encrypted envelope `{ _enc:true, algo, iv, tag, data }` written by
`encryptPayload` in main.js. -/
structure Envelope where
  encMarker : Bool
  algo : String
  iv : List Nat
  tag : Nat
  data : List Nat
deriving DecidableEq, Repr

/-- Source `encryptPayload` (main.js lines 183-196): fresh nonce `iv`
is a parameter (`crypto.randomBytes(12)` in the source). -/
def encryptPayload (plain : List Nat) (key : List Nat) (iv : List Nat) : Envelope :=
  let ct := xorBytes plain (keystream key iv plain.length)
  { encMarker := true
    algo := "aes-256-gcm"
    iv := iv
    tag := gcmTag key iv ct
    data := ct }

/-- Source `decryptPayload` (main.js lines 197-205): GCM verifies the
tag and fails (`decipher.final()` throws) on mismatch, else returns
the XOR-decrypted bytes. -/
def decryptPayload (p : Envelope) (key : List Nat) : Option (List Nat) :=
  if p.tag = gcmTag key p.iv p.data then
    some (xorBytes p.data (keystream key p.iv p.data.length))
  else none

theorem length_keystream (key iv : List Nat) (n : Nat) :
    (keystream key iv n).length = n := by
  simp [keystream]

theorem xorBytes_xorBytes (l ks : List Nat) (h : l.length ≤ ks.length) :
    xorBytes (xorBytes l ks) ks = l := by
  induction l generalizing ks with
  | nil => simp [xorBytes]
  | cons x l ih =>
    cases ks with
    | nil => simp at h
    | cons k ks =>
      have h' : l.length ≤ ks.length := by simpa using h
      show ((x ^^^ k) ^^^ k) :: xorBytes (xorBytes l ks) ks = x :: l
      rw [ih ks h', Nat.xor_cancel_right]

/-! ### Dataset merge (loadAllData, main.js lines 224-252)

The JS `Map` built by `projMap.set(p.id, p)` keeps the position of the
first insertion of a key and the value of the last insertion;
`[...projMap.values()]` lists values in first-insertion order.  That
is exactly a left fold of an upsert. -/

/-- One `projMap.set(p.id, p)` step: replace in place when the id is
already present, append otherwise. -/
def upsertProject (acc : List Project) (p : Project) : List Project :=
  if acc.any (fun q => q.id == p.id) then
    acc.map (fun q => if q.id == p.id then p else q)
  else acc ++ [p]

/-- Projects of the merged view: archive entries inserted first, then
current (active) entries (`[...archive.projects, ...current.projects]`). -/
def mergeProjects (archiveProjects currentProjects : List Project) : List Project :=
  (archiveProjects ++ currentProjects).foldl upsertProject []

/-- Merged view built by `loadAllData`: deduplicated projects and the
concatenation of active tasks then archive tasks. -/
def mergeDatasets (current archive : DB) : List Project × List Task :=
  (mergeProjects archive.projects current.projects,
   current.tasks ++ archive.tasks)

/-! ### Archive migration (saveCurrentAndMaybeArchive, main.js lines 253-295) -/

/-- Source constant `ARCHIVE_THRESHOLD`. -/
def ARCHIVE_THRESHOLD : Nat := 2000

/-- Sort key `new Date(t.dateCompleted || t.createdAt)`: completion
time, falling back to creation time when absent. -/
def completionKey (t : Task) : Nat :=
  t.dateCompleted.getD t.createdAt

/-- Move set computed by `saveCurrentAndMaybeArchive` when the active
dataset exceeds the threshold: the overflow count of completed tasks
with the oldest completion key, in completion order.  JS
`Array.prototype.sort` is stable and is modelled by `List.mergeSort`.
Below the threshold no task moves. -/
def migrationMoveSet (current : DB) : List Task :=
  if current.tasks.length > ARCHIVE_THRESHOLD then
    ((current.tasks.filter (fun t => t.completed)).mergeSort
        (fun a b => completionKey a ≤ completionKey b)).take
      (current.tasks.length - ARCHIVE_THRESHOLD)
  else []

/-- Migration step of `saveCurrentAndMaybeArchive` (main.js lines
268-284): remove the move set from the active dataset and append it to
the archive, initializing the archive bookkeeping fields on first use
(`now` models `new Date().toISOString()`).  The source guards the
whole block by the threshold test; the guard is flattened into
`migrationMoveSet`, which is empty below the threshold, with identical
behavior. -/
def archiveMigrate (now : Nat) (current archive : DB) : DB × DB :=
  let toMove := migrationMoveSet current
  if toMove.isEmpty then (current, archive)
  else
    let moveIds := toMove.map (fun t => t.id)
    ({ current with
        tasks := current.tasks.filter (fun t => !(moveIds.contains t.id)) },
     { archive with
        tasks := archive.tasks ++ toMove
        version := if archive.version = 0 then 1 else archive.version
        createdAt := if archive.createdAt = 0 then now else archive.createdAt })

/-! ### Domain mutators (IPC handlers, main.js lines 477-602)

Each handler loads both datasets, mutates them in memory and calls
`saveCurrentAndMaybeArchive`.  The in-memory mutation is modelled as a
pure function on the pair of datasets; a thrown error is `none` (the
handler throws before any write, so the persisted state is
unchanged).  Randomly generated ids and clock reads are parameters. -/

/-- Pair of the active (current) and archive datasets held in memory
between load and save. -/
structure St where
  current : DB
  archive : DB
deriving DecidableEq, Repr

/-- Ids of the projects present in the union of both datasets. -/
def projIds (st : St) : List String :=
  (st.current.projects ++ st.archive.projects).map (fun p => p.id)

/-- Handler `project:add` (main.js lines 477-514): trim the name,
reject the empty name, reject a case-insensitive duplicate across both
datasets, else append a fresh project to the active dataset. -/
def projectAdd (name : String) (pid : String) (now : Nat) (st : St) :
    Option (St × Project) :=
  let nm := jsTrim name
  if nm = "" then none
  else if (st.current.projects ++ st.archive.projects).any
      (fun p => jsToLower p.name == jsToLower nm) then none
  else
    let p : Project := { id := pid, name := nm, createdAt := now }
    some ({ st with current.projects := st.current.projects ++ [p] }, p)

/-- Handler `project:rename` (main.js lines 516-526): find the project
in either dataset and overwrite its name (no validation). -/
def projectRename (id : String) (name : String) (st : St) : Option St :=
  if st.current.projects.any (fun p => p.id == id) then
    some { st with current.projects :=
      st.current.projects.map (fun p => if p.id == id then { p with name := name } else p) }
  else if st.archive.projects.any (fun p => p.id == id) then
    some { st with archive.projects :=
      st.archive.projects.map (fun p => if p.id == id then { p with name := name } else p) }
  else none

/-- Handler `project:delete` (main.js lines 527-541): refuse to delete
`inbox`, reassign referencing tasks in both datasets to `inbox`,
remove the project from both datasets. -/
def projectDelete (id : String) (st : St) : Option St :=
  if id = "inbox" then none
  else some
    { current :=
        { st.current with
            tasks := st.current.tasks.map
              (fun t => if t.projectId = id then { t with projectId := "inbox" } else t)
            projects := st.current.projects.filter (fun p => !(p.id == id)) }
      archive :=
        { st.archive with
            tasks := st.archive.tasks.map
              (fun t => if t.projectId = id then { t with projectId := "inbox" } else t)
            projects := st.archive.projects.filter (fun p => !(p.id == id)) } }

/-- Fields of the `task:add` request; absent fields are `none`
(JS `undefined`). -/
structure TaskInput where
  title : Option String
  description : Option String
  projectId : Option String
  dueDate : Option Nat
  priority : Option Nat
  tags : Option (List String)
deriving DecidableEq, Repr

/-- JS `task.projectId || "inbox"`: absent or empty falls back to
`inbox`. -/
def resolveProjectId (o : Option String) : String :=
  let p := o.getD ""
  if p = "" then "inbox" else p

/-- Handler `task:add` (main.js lines 544-565): build the new task with
defaulted fields and append it to the active dataset.  Always
succeeds; note that `projectId` is not validated. -/
def taskAdd (input : TaskInput) (tid : Nat) (now : Nat) (st : St) : St × Task :=
  let newTask : Task :=
    { id := tid
      title := let tt := jsTrim (input.title.getD ""); if tt = "" then "Untitled" else tt
      description := jsTrim (input.description.getD "")
      projectId := resolveProjectId input.projectId
      dueDate := input.dueDate
      priority := clampPriority input.priority
      tags := match input.tags with | some ts => sanitizeTags ts | none => []
      completed := false
      dateCompleted := none
      createdAt := now
      updatedAt := now }
  ({ st with current.tasks := st.current.tasks ++ [newTask] }, newTask)

/-- Patch accepted by `task:update`; a `none` field is absent from the
patch (`typeof partial.f === "undefined"`).  `dueDate` distinguishes
an absent field from an explicit null. -/
structure TaskPatch where
  id : Nat
  title : Option String
  description : Option String
  projectId : Option String
  dueDate : Option (Option Nat)
  priority : Option Nat
  tags : Option (List String)
  completed : Option Bool
deriving DecidableEq, Repr

/-- Field-by-field mutation performed by `task:update` (main.js lines
576-586) on the found task.  When `completed` is present, it is
assigned and `dateCompleted` is set to now or cleared according to the
new value; `updatedAt` is always refreshed. -/
def applyPatch (p : TaskPatch) (now : Nat) (t : Task) : Task :=
  let t := match p.title with | some s => { t with title := jsTrim s } | none => t
  let t := match p.description with | some s => { t with description := jsTrim s } | none => t
  let t := match p.projectId with | some s => { t with projectId := s } | none => t
  let t := match p.dueDate with | some d => { t with dueDate := d } | none => t
  let t := match p.priority with | some n => { t with priority := clampPriority (some n) } | none => t
  let t := match p.tags with | some ts => { t with tags := sanitizeTags ts } | none => t
  let t := match p.completed with
    | some c => { t with completed := c, dateCompleted := if c then some now else none }
    | none => t
  { t with updatedAt := now }

/-- Handler `task:update` (main.js lines 567-590): find the task by id
in the active dataset first, then in the archive, patch it in place;
error when absent. -/
def taskUpdate (p : TaskPatch) (now : Nat) (st : St) : Option (St × Task) :=
  match st.current.tasks.find? (fun t => t.id == p.id) with
  | some t =>
    some ({ st with current.tasks :=
        st.current.tasks.map (fun u => if u.id == p.id then applyPatch p now u else u) },
      applyPatch p now t)
  | none =>
    match st.archive.tasks.find? (fun t => t.id == p.id) with
    | some t =>
      some ({ st with archive.tasks :=
          st.archive.tasks.map (fun u => if u.id == p.id then applyPatch p now u else u) },
        applyPatch p now t)
    | none => none

/-- Handler `task:delete` (main.js lines 592-602): remove the id from
both datasets, error when nothing was removed. -/
def taskDelete (id : Nat) (st : St) : Option St :=
  let c := st.current.tasks.filter (fun t => !(t.id == id))
  let a := st.archive.tasks.filter (fun t => !(t.id == id))
  if c.length + a.length = st.current.tasks.length + st.archive.tasks.length then none
  else some { current := { st.current with tasks := c }
              archive := { st.archive with tasks := a } }

/-- Save step run by every mutating handler: the archive-migration part
of `saveCurrentAndMaybeArchive` applied to the in-memory pair. -/
def saveStep (now : Nat) (st : St) : St :=
  let r := archiveMigrate now st.current st.archive
  { current := r.1, archive := r.2 }

/-- Initial in-memory pair: the default active dataset created by
`ensureFiles` and the empty archive synthesized by `loadAllData` when
no archive file exists. -/
def initSt (t0 : Nat) : St :=
  { current := defaultDB t0
    archive := { version := 1, createdAt := t0, projects := [], tasks := [] } }

/-- States of the in-memory dataset pair reachable through the exposed
IPC operations: every mutating handler loads, applies its mutation and
saves through the migration step. -/
inductive Reachable : St → Prop
  | init (t0 : Nat) : Reachable (initSt t0)
  | projectAdd {st st' p} (name pid : String) (now now' : Nat) :
      Reachable st → projectAdd name pid now st = some (st', p) →
      Reachable (saveStep now' st')
  | projectRename {st st'} (id name : String) (now' : Nat) :
      Reachable st → projectRename id name st = some st' →
      Reachable (saveStep now' st')
  | projectDelete {st st'} (id : String) (now' : Nat) :
      Reachable st → projectDelete id st = some st' →
      Reachable (saveStep now' st')
  | taskAdd {st} (input : TaskInput) (tid now now' : Nat) :
      Reachable st → Reachable (saveStep now' (taskAdd input tid now st).1)
  | taskUpdate {st st' t} (p : TaskPatch) (now now' : Nat) :
      Reachable st → taskUpdate p now st = some (st', t) →
      Reachable (saveStep now' st')
  | taskDelete {st st'} (id : Nat) (now' : Nat) :
      Reachable st → taskDelete id st = some st' →
      Reachable (saveStep now' st')

/-- Reachability restricted to callers that only reference existing
projects: `task:add` and `task:update` are invoked with a `projectId`
present in the union of both datasets (the handlers themselves do not
validate it). -/
inductive GReachable : St → Prop
  | init (t0 : Nat) : GReachable (initSt t0)
  | projectAdd {st st' p} (name pid : String) (now now' : Nat) :
      GReachable st → projectAdd name pid now st = some (st', p) →
      GReachable (saveStep now' st')
  | projectRename {st st'} (id name : String) (now' : Nat) :
      GReachable st → projectRename id name st = some st' →
      GReachable (saveStep now' st')
  | projectDelete {st st'} (id : String) (now' : Nat) :
      GReachable st → projectDelete id st = some st' →
      GReachable (saveStep now' st')
  | taskAdd {st} (input : TaskInput) (tid now now' : Nat) :
      GReachable st → resolveProjectId input.projectId ∈ projIds st →
      GReachable (saveStep now' (taskAdd input tid now st).1)
  | taskUpdate {st st' t} (p : TaskPatch) (now now' : Nat) :
      GReachable st → (∀ pid, p.projectId = some pid → pid ∈ projIds st) →
      taskUpdate p now st = some (st', t) →
      GReachable (saveStep now' st')
  | taskDelete {st st'} (id : Nat) (now' : Nat) :
      GReachable st → taskDelete id st = some st' →
      GReachable (saveStep now' st')

/-- Referential invariant of the data model: `inbox` is present in the
active dataset and every task in either dataset references a project
present in the union of both datasets. -/
def Inv (st : St) : Prop :=
  "inbox" ∈ st.current.projects.map (fun p => p.id) ∧
  ∀ t ∈ st.current.tasks ++ st.archive.tasks, t.projectId ∈ projIds st

instance (st : St) : Decidable (Inv st) := by unfold Inv; infer_instance

/-! ### SessionLock, KeyDerivation, KeyEscrow (security handlers)

The scrypt KDF (Node crypto) is collision-free for practical
purposes; it is modelled as the ideal injective pairing of the secret
with the salt.  AES-GCM authenticated decryption of a stored file is
modelled symbolically: it succeeds exactly when the supplied key
equals the key the envelope was created with.  The keytar keychain is
a key-valued cell, and the Touch ID prompt outcome is a parameter. -/

/-- KDF parameters persisted in `settings.kdf`. -/
structure KdfParams where
  algo : String
  N : Nat
  r : Nat
  p : Nat
  keyLen : Nat
  salt : Option String
deriving DecidableEq, Repr

/-- Persisted `settings.json` document. -/
structure Settings where
  version : Nat
  encryptionEnabled : Bool
  useBiometrics : Bool
  kdf : KdfParams
deriving DecidableEq, Repr

/-- Symmetric key as an ideal-KDF value: the pair of the secret and
the salt it was derived with. -/
structure Key where
  pass : String
  salt : String
deriving DecidableEq, Repr

/-- Source `deriveKey` (main.js lines 206-221): fails when the salt is
missing, otherwise the scrypt output, modelled ideally. -/
def deriveKey (pass : String) (s : Settings) : Option Key :=
  s.kdf.salt.map (fun salt => { pass := pass, salt := salt })

/-- Symbolic encrypted file: the envelope remembers the key it was
encrypted under and the dataset it wraps. -/
structure EncFile where
  key : Key
  payload : DB
deriving DecidableEq, Repr

/-- Contents of `db.json` or `archive.json`: a plaintext dataset or
one encrypted envelope. -/
inductive FileContent
  | plain (db : DB)
  | enc (e : EncFile)
deriving DecidableEq, Repr

/-- Symbolic AES-GCM decryption of a stored file: authenticates iff
the supplied key is the one the envelope was written with. -/
def decryptFile (e : EncFile) (k : Key) : Option DB :=
  if e.key = k then some e.payload else none

/-- Process-wide state of the main process: the persisted files, the
keychain entry and the in-memory session key. -/
structure AppState where
  settings : Settings
  dbFile : Option FileContent
  archiveFile : Option FileContent
  escrow : Option Key
  sessionKey : Option Key
deriving DecidableEq, Repr

/-- Results of the `security:unlock` handler. -/
inductive UnlockResult
  | okAlreadyPlain
  | okBiometrics
  | okPasscode
  | noBioKey
  | needPasscode
  | errMissingSalt
deriving DecidableEq, Repr

/-- Handler `security:unlock` (main.js lines 382-468).  `bioAvail`
models `biometricsAvailable()`; `promptOk` models the Touch ID prompt
and keychain read completing without throwing (a throw falls back to
the passcode path).  With a stored escrow key the handler unlocks
immediately; with none it returns `NO_BIO_KEY`.  With a passcode it
derives the key, stores it as the session key without any validation
against the stored data, opportunistically re-escrows it when
biometrics is enabled and available, and reports success. -/
def securityUnlock (passcode : Option String) (bioAvail promptOk : Bool)
    (st : AppState) : UnlockResult × AppState :=
  let s := st.settings
  if s.encryptionEnabled = false then (.okAlreadyPlain, st)
  else if passcode.isNone && s.useBiometrics && bioAvail && promptOk then
    match st.escrow with
    | some k => (.okBiometrics, { st with sessionKey := some k })
    | none => (.noBioKey, st)
  else
    match passcode with
    | none => (.needPasscode, st)
    | some pc =>
      match deriveKey pc s with
      | none => (.errMissingSalt, st)
      | some key =>
        if s.useBiometrics && bioAvail then
          (.okPasscode, { st with sessionKey := some key, escrow := some key })
        else (.okPasscode, { st with sessionKey := some key })

/-- Placeholder for an envelope JSON object read with encryption
disabled: the parsed document carries no `projects` or `tasks`
fields. -/
def envelopeDoc : DB :=
  { version := 0, createdAt := 0, projects := [], tasks := [] }

/-- Source `readJSONFile` (main.js lines 111-139): absent file reads as
null; with encryption expected, a plaintext file is an error, a locked
session is an error, and an authentication failure propagates. -/
def readJSONFile (f : Option FileContent) (encrypted : Bool)
    (skey : Option Key) : Except String (Option DB) :=
  match f with
  | none => .ok none
  | some (.plain db) =>
    if encrypted then .error "Expected encrypted file" else .ok (some db)
  | some (.enc e) =>
    if encrypted then
      match skey with
      | none => .error "Locked: no session key"
      | some k =>
        match decryptFile e k with
        | some db => .ok (some db)
        | none => .error "AuthenticationError"
    else .ok (some envelopeDoc)

/-- Source `loadAllData` (main.js lines 224-252) over the process
state: read the active dataset (defaulting it when absent), read the
archive when its file exists (defaulting it otherwise), and merge.
`t0` is the module-load timestamp baked into `defaultDB`. -/
def loadAllData (t0 : Nat) (st : AppState) :
    Except String (List Project × List Task × DB × DB) :=
  match readJSONFile st.dbFile st.settings.encryptionEnabled st.sessionKey with
  | .error e => .error e
  | .ok cur? =>
    let current := cur?.getD (defaultDB t0)
    let archDefault : DB :=
      { version := 1, createdAt := current.createdAt, projects := [], tasks := [] }
    match st.archiveFile with
    | none =>
      let m := mergeDatasets current archDefault
      .ok (m.1, m.2, current, archDefault)
    | some _ =>
      match readJSONFile st.archiveFile st.settings.encryptionEnabled st.sessionKey with
      | .error e => .error e
      | .ok arch? =>
        let archive := arch?.getD archDefault
        let m := mergeDatasets current archive
        .ok (m.1, m.2, current, archive)

/-- Truth value of an `Except` being a success. -/
def exceptOk {ε α : Type} : Except ε α → Bool
  | .ok _ => true
  | .error _ => false

/-! ### General list helpers -/

theorem length_filter_not_add {α : Type} (p : α → Bool) (l : List α) :
    (l.filter (fun a => !(p a))).length + (l.filter p).length = l.length := by
  induction l with
  | nil => rfl
  | cons x l ih =>
    by_cases h : p x = true
    · simp [List.filter_cons, h]
      omega
    · simp [List.filter_cons, h]
      omega

theorem filter_id_eq_one {ts : List Task}
    (hnd : (ts.map (fun t => t.id)).Nodup) {m : Task} (hm : m ∈ ts) :
    (ts.filter (fun t => t.id == m.id)).length = 1 := by
  induction ts with
  | nil => cases hm
  | cons x ts ih =>
    simp only [List.map_cons, List.nodup_cons] at hnd
    obtain ⟨hx, hnd'⟩ := hnd
    rcases List.mem_cons.mp hm with rfl | hm'
    · have hnone : ts.filter (fun t => t.id == m.id) = [] := by
        apply List.filter_eq_nil_iff.mpr
        intro t ht hte
        exact hx ((beq_iff_eq.mp hte) ▸ List.mem_map_of_mem (fun t => t.id) ht)
      simp [List.filter_cons, hnone]
    · have hxm : ¬ (x.id == m.id) = true := by
        intro hte
        exact hx ((beq_iff_eq.mp hte) ▸ List.mem_map_of_mem (fun t => t.id) hm')
      simp only [List.filter_cons, hxm]
      simpa using ih hnd' hm'

/-! ### Claim C3: AEAD round-trip -/

/-- C3: for every plaintext byte string P, every 32-byte key K and
every 12-byte nonce, decrypting the envelope produced by encrypting P
under K with the same key K yields exactly P. -/
theorem C3_encrypt_decrypt_roundtrip (P K iv : List Nat)
    (hK : K.length = 32) (hiv : iv.length = 12) :
    decryptPayload (encryptPayload P K iv) K = some P := by
  have hct : (xorBytes P (keystream K iv P.length)).length = P.length := by
    simp [xorBytes, length_keystream]
  simp only [decryptPayload, encryptPayload, if_pos rfl]
  rw [hct]
  exact congrArg some (xorBytes_xorBytes P _ (by rw [length_keystream]))

/-- Witness for C3 at a concrete plaintext, key and nonce. -/
theorem C3_encrypt_decrypt_roundtrip_witness :
    (List.replicate 32 5).length = 32 ∧ (List.replicate 12 7).length = 12 ∧
    decryptPayload (encryptPayload [1, 2, 3] (List.replicate 32 5) (List.replicate 12 7))
      (List.replicate 32 5) = some [1, 2, 3] :=
  ⟨by decide, by decide,
    C3_encrypt_decrypt_roundtrip [1, 2, 3] (List.replicate 32 5) (List.replicate 12 7)
      (by decide) (by decide)⟩

/-! ### Claim C9: tag sanitization -/

/-- C9 amended: every stored tag list has at most 20 entries, and each
entry is non-empty and is the trim of a submitted tag; duplicates are
not removed (see the counterexample). -/
theorem C9_sanitizeTags_shape (tags : List String) :
    (sanitizeTags tags).length ≤ 20 ∧
    ∀ s ∈ sanitizeTags tags, s ≠ "" ∧ ∃ t ∈ tags, s = jsTrim t := by
  refine ⟨List.length_take_le 20 _, ?_⟩
  intro s hs
  have hs' := List.mem_of_mem_take hs
  have hmem := (List.mem_filter.mp hs').1
  have hne := (List.mem_filter.mp hs').2
  refine ⟨by simpa using hne, ?_⟩
  obtain ⟨t, ht, rfl⟩ := List.mem_map.mp hmem
  exact ⟨t, ht, rfl⟩

/-- Witness for C9 at a concrete tag list. -/
theorem C9_sanitizeTags_shape_witness :
    (sanitizeTags ["  x ", "", "y"]).length ≤ 20 ∧
    ∀ s ∈ sanitizeTags ["  x ", "", "y"], s ≠ "" ∧
      ∃ t ∈ ["  x ", "", "y"], s = jsTrim t :=
  C9_sanitizeTags_shape ["  x ", "", "y"]

/-- Counterexample to C9 as stated: `sanitizeTags` performs no
deduplication, so the stored tags need not be pairwise distinct. -/
theorem C9_sanitizeTags_counterexample :
    sanitizeTags ["a", "a"] = ["a", "a"] ∧ ¬ (sanitizeTags ["a", "a"]).Nodup := by
  constructor
  · decide
  · decide

/-! ### Claim C7: unlock with empty escrow -/

/-- C7: with encryption on, biometrics enabled and available, a
successful biometric prompt and no escrowed key, `security:unlock`
invoked without a secret returns the `NO_BIO_KEY` failure (the
`EscrowKeyMissing` code, distinct from the other failure code) and
leaves the whole process state, in particular every persisted file,
unchanged. -/
theorem C7_unlock_escrow_missing (st : AppState)
    (henc : st.settings.encryptionEnabled = true)
    (hbio : st.settings.useBiometrics = true)
    (hesc : st.escrow = none) :
    securityUnlock none true true st = (.noBioKey, st) ∧
    UnlockResult.noBioKey ≠ UnlockResult.needPasscode := by
  refine ⟨?_, by decide⟩
  simp [securityUnlock, henc, hbio, hesc]

/-- Witness for C7 at a concrete process state. -/
theorem C7_unlock_escrow_missing_witness :
    securityUnlock none true true
      { settings :=
          { version := 1, encryptionEnabled := true, useBiometrics := true
            kdf := { algo := "scrypt", N := 16384, r := 8, p := 1, keyLen := 32
                     salt := some "s" } }
        dbFile := none, archiveFile := none, escrow := none, sessionKey := none } =
      (.noBioKey,
        { settings :=
            { version := 1, encryptionEnabled := true, useBiometrics := true
              kdf := { algo := "scrypt", N := 16384, r := 8, p := 1, keyLen := 32
                       salt := some "s" } }
          dbFile := none, archiveFile := none, escrow := none, sessionKey := none }) ∧
    UnlockResult.noBioKey ≠ UnlockResult.needPasscode :=
  C7_unlock_escrow_missing _ rfl rfl rfl

/-! ### Claim C8: addProject rejections -/

/-- C8: `project:add` fails for every name that is empty after
trimming, and fails for every name whose trimmed form equals,
case-insensitively, the name of a project already present in either
dataset; the handler throws before saving, so on failure no project is
added (the failing call produces no successor state). -/
theorem C8_projectAdd_rejections (name pid : String) (now : Nat) (st : St) :
    (jsTrim name = "" → projectAdd name pid now st = none) ∧
    ((∃ p ∈ st.current.projects ++ st.archive.projects,
        jsToLower p.name = jsToLower (jsTrim name)) →
      projectAdd name pid now st = none) := by
  constructor
  · intro h
    simp [projectAdd, h]
  · rintro ⟨p, hp, he⟩
    by_cases h1 : jsTrim name = ""
    · simp [projectAdd, h1]
    · have hany : (st.current.projects ++ st.archive.projects).any
          (fun p => jsToLower p.name == jsToLower (jsTrim name)) = true :=
        List.any_eq_true.mpr ⟨p, hp, by simp [he]⟩
      simp [projectAdd, h1, hany]

/-- Witness for C8: the all-blank name and a case-insensitive
duplicate of the Inbox project are both rejected on the initial
state. -/
theorem C8_projectAdd_rejections_witness :
    projectAdd "   " "p1" 3 (initSt 0) = none ∧
    projectAdd " INBOX " "p1" 3 (initSt 0) = none :=
  ⟨(C8_projectAdd_rejections "   " "p1" 3 (initSt 0)).1 (by decide),
   (C8_projectAdd_rejections " INBOX " "p1" 3 (initSt 0)).2
     ⟨{ id := "inbox", name := "Inbox", createdAt := 0 }, by decide, by decide⟩⟩

/-! ### Claim C5: merged view -/

theorem find?_map_self (acc : List Project) (p : Project) (i : String)
    (hi : (p.id == i) = true)
    (hany : acc.any (fun q => q.id == p.id) = true) :
    (acc.map (fun q => if q.id == p.id then p else q)).find?
      (fun q => q.id == i) = some p := by
  induction acc with
  | nil => simp at hany
  | cons x acc ih =>
    simp only [List.map_cons]
    by_cases hx : (x.id == p.id) = true
    · rw [if_pos hx]
      simp [List.find?_cons, hi]
    · rw [if_neg hx]
      have hxi : (x.id == i) = false := by
        refine Bool.eq_false_iff.mpr ?_
        intro h
        apply hx
        have h1 : x.id = i := beq_iff_eq.mp h
        have h2 : p.id = i := beq_iff_eq.mp hi
        simp [h1, h2]
      simp only [List.find?_cons, hxi]
      apply ih
      simpa [List.any_cons, hx] using hany

theorem find?_map_other (acc : List Project) (p : Project) (i : String)
    (hi : ¬ (p.id == i) = true) :
    (acc.map (fun q => if q.id == p.id then p else q)).find? (fun q => q.id == i) =
      acc.find? (fun q => q.id == i) := by
  induction acc with
  | nil => rfl
  | cons x acc ih =>
    simp only [List.map_cons]
    by_cases hx : (x.id == p.id) = true
    · rw [if_pos hx]
      have hif : (p.id == i) = false := Bool.eq_false_iff.mpr hi
      have hxi : (x.id == i) = false := by
        refine Bool.eq_false_iff.mpr ?_
        intro h
        apply hi
        have h1 : x.id = i := beq_iff_eq.mp h
        have h2 : x.id = p.id := beq_iff_eq.mp hx
        simp [← h1, ← h2]
      simp only [List.find?_cons, hif, hxi]
      exact ih
    · rw [if_neg hx]
      by_cases hxi : (x.id == i) = true
      · simp only [List.find?_cons, hxi]
      · simp only [List.find?_cons, Bool.eq_false_iff.mpr hxi]
        exact ih

theorem upsert_find? (acc : List Project) (p : Project) (i : String) :
    (upsertProject acc p).find? (fun q => q.id == i) =
      if (p.id == i) = true then some p else acc.find? (fun q => q.id == i) := by
  unfold upsertProject
  by_cases hany : acc.any (fun q => q.id == p.id) = true
  · rw [if_pos hany]
    by_cases hi : (p.id == i) = true
    · rw [if_pos hi]
      exact find?_map_self acc p i hi hany
    · rw [if_neg hi]
      exact find?_map_other acc p i hi
  · rw [if_neg hany, List.find?_append]
    by_cases hi : (p.id == i) = true
    · rw [if_pos hi]
      have hnone : acc.find? (fun q => q.id == i) = none := by
        apply List.find?_eq_none.mpr
        intro q hq hqi
        apply hany
        refine List.any_eq_true.mpr ⟨q, hq, ?_⟩
        have h1 : q.id = i := beq_iff_eq.mp hqi
        have h2 : p.id = i := beq_iff_eq.mp hi
        simp [h1, h2]
      simp [hnone, List.find?, hi]
    · rw [if_neg hi]
      have hsing : ([p].find? (fun q => q.id == i)) = none := by
        simp [List.find?, hi]
      rw [hsing]
      cases acc.find? (fun q => q.id == i) <;> rfl

theorem foldl_upsert_find? (l : List Project) (acc : List Project) (i : String) :
    (l.foldl upsertProject acc).find? (fun q => q.id == i) =
      (l.reverse.find? (fun q => q.id == i)).or
        (acc.find? (fun q => q.id == i)) := by
  induction l generalizing acc with
  | nil => simp
  | cons p l ih =>
    rw [List.foldl_cons, ih (upsertProject acc p), upsert_find?,
      List.reverse_cons, List.find?_append]
    cases h : l.reverse.find? (fun q => q.id == i) with
    | some q => rfl
    | none =>
      by_cases hi : (p.id == i) = true
      · simp [List.find?, hi]
      · simp [List.find?, hi]

theorem upsert_ids_nodup (acc : List Project) (p : Project)
    (h : (acc.map (fun q => q.id)).Nodup) :
    ((upsertProject acc p).map (fun q => q.id)).Nodup := by
  unfold upsertProject
  by_cases hany : acc.any (fun q => q.id == p.id) = true
  · rw [if_pos hany]
    have hsame : (acc.map (fun q => if q.id == p.id then p else q)).map (fun q => q.id) =
        acc.map (fun q => q.id) := by
      rw [List.map_map]
      apply List.map_congr_left
      intro q hq
      by_cases hq' : (q.id == p.id) = true
      · simp only [Function.comp_apply, if_pos hq']
        exact (beq_iff_eq.mp hq').symm
      · simp only [Function.comp_apply, if_neg hq']
    rw [hsame]
    exact h
  · rw [if_neg hany, List.map_append]
    refine List.Nodup.append h (by simp) ?_
    intro a ha hb
    simp only [List.map_cons, List.map_nil, List.mem_singleton] at hb
    subst hb
    obtain ⟨q, hq, hqi⟩ := List.mem_map.mp ha
    exact hany (List.any_eq_true.mpr ⟨q, hq, by simp [hqi]⟩)

theorem foldl_upsert_nodup (l : List Project) (acc : List Project)
    (h : (acc.map (fun q => q.id)).Nodup) :
    ((l.foldl upsertProject acc).map (fun q => q.id)).Nodup := by
  induction l generalizing acc with
  | nil => exact h
  | cons p l ih => exact ih _ (upsert_ids_nodup acc p h)

theorem find?_eq_some_of_nodup {l : List Project}
    (hnd : (l.map (fun p => p.id)).Nodup) {p : Project} (hp : p ∈ l) :
    l.find? (fun q => q.id == p.id) = some p := by
  induction l with
  | nil => cases hp
  | cons x l ih =>
    simp only [List.map_cons, List.nodup_cons] at hnd
    rcases List.mem_cons.mp hp with rfl | hp'
    · simp [List.find?_cons]
    · have hx : (x.id == p.id) = false := by
        refine Bool.eq_false_iff.mpr ?_
        intro h
        exact hnd.1 ((beq_iff_eq.mp h) ▸ List.mem_map_of_mem (fun q => q.id) hp')
      simp only [List.find?_cons, hx]
      exact ih hnd.2 hp'

/-- C5: in the merged view the projects carry no duplicate id, the
entry retained for each id is the last one inserted into the map
(archive entries first, overwritten by active entries of the same id),
the tasks are the concatenation of active tasks followed by archive
tasks, and in particular a project present only in the archive
survives into the view and every active task appears in it. -/
theorem C5_merge_correctness (cur arc : DB)
    (hnd : (arc.projects.map (fun p => p.id)).Nodup) :
    ((mergeDatasets cur arc).1.map (fun p => p.id)).Nodup ∧
    (∀ i, (mergeDatasets cur arc).1.find? (fun q => q.id == i) =
      (cur.projects.reverse ++ arc.projects.reverse).find? (fun q => q.id == i)) ∧
    (mergeDatasets cur arc).2 = cur.tasks ++ arc.tasks ∧
    (∀ p ∈ arc.projects, (∀ q ∈ cur.projects, q.id ≠ p.id) →
      p ∈ (mergeDatasets cur arc).1) ∧
    (∀ t ∈ cur.tasks, t ∈ (mergeDatasets cur arc).2) := by
  refine ⟨foldl_upsert_nodup _ [] (by simp), ?_, rfl, ?_, ?_⟩
  · intro i
    have h := foldl_upsert_find? (arc.projects ++ cur.projects) [] i
    simp only [mergeDatasets, mergeProjects]
    rw [h, List.reverse_append, List.find?_append]
    cases cur.projects.reverse.find? (fun q => q.id == i) <;> simp
  · intro p hp hcur
    have hfind : (mergeDatasets cur arc).1.find? (fun q => q.id == p.id) = some p := by
      have h := foldl_upsert_find? (arc.projects ++ cur.projects) [] p.id
      simp only [mergeDatasets, mergeProjects]
      rw [h, List.reverse_append, List.find?_append]
      have hcnone : cur.projects.reverse.find? (fun q => q.id == p.id) = none := by
        apply List.find?_eq_none.mpr
        intro q hq hqe
        exact hcur q (List.mem_reverse.mp hq) (beq_iff_eq.mp hqe)
      have hanod : (arc.projects.reverse.map (fun p => p.id)).Nodup := by
        rw [List.map_reverse]
        exact (List.nodup_reverse).mpr hnd
      have harc : arc.projects.reverse.find? (fun q => q.id == p.id) = some p :=
        find?_eq_some_of_nodup hanod (List.mem_reverse.mpr hp)
      simp [hcnone, harc]
    exact List.mem_of_find?_eq_some hfind
  · intro t ht
    simp only [mergeDatasets]
    exact List.mem_append_left _ ht

/-- Witness for C5 at concrete datasets: the project `work` lives only
in the archive, the task referencing it only in the active dataset. -/
theorem C5_merge_correctness_witness :
    (((mergeDatasets
        { version := 1, createdAt := 0
          projects := [{ id := "inbox", name := "Inbox", createdAt := 0 }]
          tasks := [{ id := 1, title := "t", description := "", projectId := "work"
                      dueDate := none, priority := 0, tags := [], completed := false
                      dateCompleted := none, createdAt := 0, updatedAt := 0 }] }
        { version := 1, createdAt := 0
          projects := [{ id := "work", name := "Work", createdAt := 0 }]
          tasks := [] }).1.map (fun p => p.id)).Nodup) ∧
    (∀ i, (mergeDatasets
        { version := 1, createdAt := 0
          projects := [{ id := "inbox", name := "Inbox", createdAt := 0 }]
          tasks := [{ id := 1, title := "t", description := "", projectId := "work"
                      dueDate := none, priority := 0, tags := [], completed := false
                      dateCompleted := none, createdAt := 0, updatedAt := 0 }] }
        { version := 1, createdAt := 0
          projects := [{ id := "work", name := "Work", createdAt := 0 }]
          tasks := [] }).1.find? (fun q => q.id == i) =
      (([{ id := "inbox", name := "Inbox", createdAt := 0 }] : List Project).reverse ++
        ([{ id := "work", name := "Work", createdAt := 0 }] : List Project).reverse).find?
        (fun q => q.id == i)) ∧
    (mergeDatasets
        { version := 1, createdAt := 0
          projects := [{ id := "inbox", name := "Inbox", createdAt := 0 }]
          tasks := [{ id := 1, title := "t", description := "", projectId := "work"
                      dueDate := none, priority := 0, tags := [], completed := false
                      dateCompleted := none, createdAt := 0, updatedAt := 0 }] }
        { version := 1, createdAt := 0
          projects := [{ id := "work", name := "Work", createdAt := 0 }]
          tasks := [] }).2 =
      [{ id := 1, title := "t", description := "", projectId := "work"
         dueDate := none, priority := 0, tags := [], completed := false
         dateCompleted := none, createdAt := 0, updatedAt := 0 }] ++ [] ∧
    (∀ p ∈ ([{ id := "work", name := "Work", createdAt := 0 }] : List Project),
      (∀ q ∈ ([{ id := "inbox", name := "Inbox", createdAt := 0 }] : List Project),
        q.id ≠ p.id) →
      p ∈ (mergeDatasets
        { version := 1, createdAt := 0
          projects := [{ id := "inbox", name := "Inbox", createdAt := 0 }]
          tasks := [{ id := 1, title := "t", description := "", projectId := "work"
                      dueDate := none, priority := 0, tags := [], completed := false
                      dateCompleted := none, createdAt := 0, updatedAt := 0 }] }
        { version := 1, createdAt := 0
          projects := [{ id := "work", name := "Work", createdAt := 0 }]
          tasks := [] }).1) ∧
    (∀ t ∈ [{ id := 1, title := "t", description := "", projectId := "work"
              dueDate := none, priority := 0, tags := [], completed := false
              dateCompleted := none, createdAt := 0, updatedAt := 0 }],
      t ∈ (mergeDatasets
        { version := 1, createdAt := 0
          projects := [{ id := "inbox", name := "Inbox", createdAt := 0 }]
          tasks := [{ id := 1, title := "t", description := "", projectId := "work"
                      dueDate := none, priority := 0, tags := [], completed := false
                      dateCompleted := none, createdAt := 0, updatedAt := 0 }] }
        { version := 1, createdAt := 0
          projects := [{ id := "work", name := "Work", createdAt := 0 }]
          tasks := [] }).2) :=
  C5_merge_correctness _ _ (by decide)

/-! ### Claims C2 and C10: archive migration -/

theorem archiveMigrate_noop (now : Nat) (cur arc : DB)
    (h : migrationMoveSet cur = []) :
    archiveMigrate now cur arc = (cur, arc) := by
  simp only [archiveMigrate]
  rw [h]
  rfl

theorem completionLe_trans : ∀ a b c : Task,
    (fun a b : Task => (completionKey a ≤ completionKey b : Bool)) a b = true →
    (fun a b : Task => (completionKey a ≤ completionKey b : Bool)) b c = true →
    (fun a b : Task => (completionKey a ≤ completionKey b : Bool)) a c = true := by
  intro a b c h1 h2
  simp only [decide_eq_true_eq] at *
  omega

theorem completionLe_total : ∀ a b : Task,
    ((fun a b : Task => (completionKey a ≤ completionKey b : Bool)) a b ||
     (fun a b : Task => (completionKey a ≤ completionKey b : Bool)) b a) = true := by
  intro a b
  rcases Nat.le_total (completionKey a) (completionKey b) with h | h <;> simp [h]

/-- C2: starting from an active dataset of 2001 tasks, all completed
and with distinct ids, and an empty archive, one migration leaves
exactly 2000 active tasks and one archived task; the archived task
comes from the active dataset and its completion key (completion time,
or creation time when completion time is absent) is minimal among all
tasks; running the migration again moves nothing. -/
theorem C2_archive_migration (now later : Nat) (cur arc : DB)
    (hlen : cur.tasks.length = 2001)
    (hall : ∀ t ∈ cur.tasks, t.completed = true)
    (harc : arc.tasks = [])
    (hnd : (cur.tasks.map (fun t => t.id)).Nodup) :
    (archiveMigrate now cur arc).1.tasks.length = 2000 ∧
    (archiveMigrate now cur arc).2.tasks.length = 1 ∧
    (∀ m ∈ (archiveMigrate now cur arc).2.tasks,
      m ∈ cur.tasks ∧ ∀ t ∈ cur.tasks, completionKey m ≤ completionKey t) ∧
    archiveMigrate later (archiveMigrate now cur arc).1 (archiveMigrate now cur arc).2 =
      ((archiveMigrate now cur arc).1, (archiveMigrate now cur arc).2) := by
  have hfil : cur.tasks.filter (fun t => t.completed) = cur.tasks :=
    List.filter_eq_self.mpr (fun a ha => hall a ha)
  obtain ⟨m, rest, hS⟩ : ∃ m rest,
      (cur.tasks.filter (fun t => t.completed)).mergeSort
        (fun a b => (completionKey a ≤ completionKey b : Bool)) = m :: rest := by
    cases hS : (cur.tasks.filter (fun t => t.completed)).mergeSort
        (fun a b => (completionKey a ≤ completionKey b : Bool)) with
    | nil =>
      exfalso
      have := congrArg List.length hS
      rw [List.length_mergeSort, hfil, hlen] at this
      simp at this
    | cons a l => exact ⟨a, l, rfl⟩
  have hmove : migrationMoveSet cur = [m] := by
    unfold migrationMoveSet
    rw [if_pos (by simp only [ARCHIVE_THRESHOLD, hlen]; omega), hS, hlen]
    norm_num [ARCHIVE_THRESHOLD]
  have hmmem : m ∈ cur.tasks := by
    have hm : m ∈ m :: rest := List.mem_cons_self _ _
    rw [← hS, List.mem_mergeSort, hfil] at hm
    exact hm
  have hr : archiveMigrate now cur arc =
      ({ cur with tasks := (cur.tasks.filter
          (fun t => !((([m] : List Task).map (fun t => t.id)).contains t.id))) },
       { arc with tasks := arc.tasks ++ [m]
                  version := if arc.version = 0 then 1 else arc.version
                  createdAt := if arc.createdAt = 0 then now else arc.createdAt }) := by
    simp only [archiveMigrate]
    rw [hmove]
    rfl
  have hfeq : cur.tasks.filter
      (fun t => !((([m] : List Task).map (fun t => t.id)).contains t.id)) =
      cur.tasks.filter (fun t => !(t.id == m.id)) := by
    apply List.filter_congr
    intro t ht
    simp only [List.contains_eq_any_beq, List.map_cons, List.map_nil, List.any_cons,
      List.any_nil, Bool.or_false]
  have hone : (cur.tasks.filter (fun t => t.id == m.id)).length = 1 :=
    filter_id_eq_one hnd hmmem
  have hadd := length_filter_not_add (fun t => t.id == m.id) cur.tasks
  have hc1 : (archiveMigrate now cur arc).1.tasks.length = 2000 := by
    rw [hr]
    simp only
    rw [hfeq]
    omega
  refine ⟨hc1, ?_, ?_, ?_⟩
  · rw [hr]
    simp [harc]
  · intro m' hm'
    rw [hr] at hm'
    simp only [harc, List.nil_append, List.mem_singleton] at hm'
    subst hm'
    refine ⟨hmmem, ?_⟩
    intro t ht
    have hpw := @List.sorted_mergeSort Task
      (fun a b : Task => (completionKey a ≤ completionKey b : Bool))
      completionLe_trans completionLe_total
      (cur.tasks.filter (fun t => t.completed))
    rw [hS] at hpw
    have ht' : t ∈ m' :: rest := by
      rw [← hS, List.mem_mergeSort, hfil]
      exact ht
    rcases List.mem_cons.mp ht' with rfl | htr
    · exact Nat.le_refl _
    · exact of_decide_eq_true ((List.pairwise_cons.mp hpw).1 t htr)
  · have hempty : migrationMoveSet (archiveMigrate now cur arc).1 = [] := by
      unfold migrationMoveSet
      rw [if_neg]
      rw [hc1]
      simp [ARCHIVE_THRESHOLD]
    exact archiveMigrate_noop later _ _ hempty

/-- Witness input for C2: 2001 completed tasks with distinct ids. -/
def mkTaskC2 (i : Nat) : Task :=
  { id := i, title := "t", description := "", projectId := "inbox", dueDate := none
    priority := 0, tags := [], completed := true, dateCompleted := some (i + 1)
    createdAt := 0, updatedAt := 0 }

/-- Witness active dataset for C2. -/
def bigDB : DB :=
  { version := 1, createdAt := 0
    projects := [{ id := "inbox", name := "Inbox", createdAt := 0 }]
    tasks := (List.range 2001).map mkTaskC2 }

/-- Witness archive dataset for C2. -/
def emptyArc : DB :=
  { version := 1, createdAt := 0, projects := [], tasks := [] }

set_option maxRecDepth 400000 in
theorem bigDB_tasks : bigDB.tasks = (List.range 2001).map mkTaskC2 := rfl

set_option maxRecDepth 400000 in
/-- Witness for C2 at the concrete 2001-task dataset. -/
theorem C2_archive_migration_witness :
    bigDB.tasks.length = 2001 ∧
    (archiveMigrate 7 bigDB emptyArc).1.tasks.length = 2000 ∧
    (archiveMigrate 7 bigDB emptyArc).2.tasks.length = 1 ∧
    (∀ m ∈ (archiveMigrate 7 bigDB emptyArc).2.tasks,
      m ∈ bigDB.tasks ∧ ∀ t ∈ bigDB.tasks, completionKey m ≤ completionKey t) ∧
    archiveMigrate 8 (archiveMigrate 7 bigDB emptyArc).1 (archiveMigrate 7 bigDB emptyArc).2 =
      ((archiveMigrate 7 bigDB emptyArc).1, (archiveMigrate 7 bigDB emptyArc).2) := by
  have hlen : bigDB.tasks.length = 2001 := by
    rw [bigDB_tasks, List.length_map, List.length_range]
  have h := C2_archive_migration 7 8 bigDB emptyArc
    hlen
    (by
      intro t ht
      rw [bigDB_tasks, List.mem_map] at ht
      obtain ⟨i, _, rfl⟩ := ht
      rfl)
    rfl
    (by
      have hmap : bigDB.tasks.map (fun t => t.id) = List.range 2001 := by
        rw [bigDB_tasks, List.map_map]
        have hcomp : ((fun t : Task => t.id) ∘ mkTaskC2) = id := rfl
        rw [hcomp, List.map_id]
      rw [hmap]
      exact List.nodup_range 2001)
  exact ⟨hlen, h.1, h.2.1, h.2.2.1, h.2.2.2⟩

/-- C10: when the active dataset is above the threshold but holds
fewer completed tasks than the overflow, only completed tasks ever
move: the archive gains exactly the completed tasks, the active
dataset is left with exactly its uncompleted tasks, and it still holds
more than the threshold (so the threshold is not a hard bound); the
save itself still succeeds (the function is total). -/
theorem C10_partial_migration (now : Nat) (cur arc : DB)
    (hgt : cur.tasks.length > ARCHIVE_THRESHOLD)
    (hfew : (cur.tasks.filter (fun t => t.completed)).length <
      cur.tasks.length - ARCHIVE_THRESHOLD)
    (hnd : (cur.tasks.map (fun t => t.id)).Nodup) :
    (∀ m ∈ (archiveMigrate now cur arc).2.tasks, m ∈ arc.tasks ∨ m.completed = true) ∧
    (archiveMigrate now cur arc).1.tasks = cur.tasks.filter (fun t => !t.completed) ∧
    (archiveMigrate now cur arc).2.tasks.length =
      arc.tasks.length + (cur.tasks.filter (fun t => t.completed)).length ∧
    (archiveMigrate now cur arc).1.tasks.length > ARCHIVE_THRESHOLD := by
  have hmove : migrationMoveSet cur =
      (cur.tasks.filter (fun t => t.completed)).mergeSort
        (fun a b => (completionKey a ≤ completionKey b : Bool)) := by
    unfold migrationMoveSet
    rw [if_pos hgt]
    apply List.take_of_length_le
    rw [List.length_mergeSort]
    omega
  have haddf := length_filter_not_add (fun t => t.completed) cur.tasks
  by_cases hcs : (cur.tasks.filter (fun t => t.completed)).length = 0
  · have hnil : cur.tasks.filter (fun t => t.completed) = [] :=
      List.length_eq_zero.mp hcs
    have hnone : ∀ t ∈ cur.tasks, t.completed = false := by
      intro t ht
      have := List.filter_eq_nil_iff.mp hnil t ht
      simpa using this
    have hmnil : migrationMoveSet cur = [] := by
      rw [hmove]
      exact ((List.mergeSort_perm _ _).trans (hnil ▸ List.Perm.refl _)).eq_nil
    rw [archiveMigrate_noop now cur arc hmnil]
    refine ⟨fun m hm => Or.inl hm, ?_, by rw [hnil]; rfl, hgt⟩
    symm
    apply List.filter_eq_self.mpr
    intro t ht
    simp [hnone t ht]
  · have hne : (cur.tasks.filter (fun t => t.completed)).mergeSort
        (fun a b => (completionKey a ≤ completionKey b : Bool)) ≠ [] := by
      intro h
      have := congrArg List.length h
      rw [List.length_mergeSort] at this
      simp only [List.length_nil] at this
      exact hcs this
    have hie : (migrationMoveSet cur).isEmpty = false := by
      rw [hmove]
      exact List.isEmpty_eq_false.mpr hne
    have hr : archiveMigrate now cur arc =
        ({ cur with tasks := (cur.tasks.filter
            (fun t => !(((migrationMoveSet cur).map (fun t => t.id)).contains t.id))) },
         { arc with tasks := arc.tasks ++ migrationMoveSet cur
                    version := if arc.version = 0 then 1 else arc.version
                    createdAt := if arc.createdAt = 0 then now else arc.createdAt }) := by
      simp only [archiveMigrate]
      rw [hie]
      rfl
    have hidmem : ∀ t ∈ cur.tasks,
        (((migrationMoveSet cur).map (fun t => t.id)).contains t.id) = t.completed := by
      intro t ht
      by_cases hc : t.completed = true
      · rw [hc]
        have homem : t.id ∈ (migrationMoveSet cur).map (fun t => t.id) := by
          rw [hmove]
          exact List.mem_map_of_mem _
            (List.mem_mergeSort.mpr (List.mem_filter.mpr ⟨ht, hc⟩))
        exact List.elem_iff.mpr homem
      · have hcf : t.completed = false := Bool.eq_false_iff.mpr hc
        rw [hcf]
        refine Bool.eq_false_iff.mpr ?_
        intro habs
        have hmem := List.elem_iff.mp habs
        rw [hmove] at hmem
        obtain ⟨u, hu, huid⟩ := List.mem_map.mp hmem
        have hu' := List.mem_mergeSort.mp hu
        have humem : u ∈ cur.tasks := (List.mem_filter.mp hu').1
        have hucomp : u.completed = true := by
          have := (List.mem_filter.mp hu').2
          simpa using this
        have : u = t := List.inj_on_of_nodup_map hnd humem ht huid
        rw [this] at hucomp
        rw [hucomp] at hcf
        cases hcf
    have hact : (archiveMigrate now cur arc).1.tasks =
        cur.tasks.filter (fun t => !t.completed) := by
      rw [hr]
      simp only
      apply List.filter_congr
      intro t ht
      rw [hidmem t ht]
    refine ⟨?_, hact, ?_, ?_⟩
    · intro m hm
      rw [hr] at hm
      simp only at hm
      rcases List.mem_append.mp hm with h | h
      · exact Or.inl h
      · right
        rw [hmove] at h
        have := (List.mem_filter.mp (List.mem_mergeSort.mp h)).2
        simpa using this
    · rw [hr]
      simp only [List.length_append]
      rw [hmove, List.length_mergeSort]
    · rw [hact]
      have : (cur.tasks.filter (fun t => !t.completed)).length +
          (cur.tasks.filter (fun t => t.completed)).length = cur.tasks.length := haddf
      omega

/-- Witness input for C10: 2002 tasks with distinct ids where only
task 0 is completed. -/
def mkTaskC10 (i : Nat) : Task :=
  { id := i, title := "t", description := "", projectId := "inbox", dueDate := none
    priority := 0, tags := [], completed := i == 0
    dateCompleted := if i == 0 then some 1 else none
    createdAt := 0, updatedAt := 0 }

/-- Witness active dataset for C10. -/
def bigDB10 : DB :=
  { version := 1, createdAt := 0
    projects := [{ id := "inbox", name := "Inbox", createdAt := 0 }]
    tasks := (List.range 2002).map mkTaskC10 }

set_option maxRecDepth 400000 in
theorem bigDB10_tasks : bigDB10.tasks = (List.range 2002).map mkTaskC10 := rfl

set_option maxRecDepth 400000 in
theorem bigDB10_completed :
    bigDB10.tasks.filter (fun t => t.completed) = [mkTaskC10 0] := by
  rw [bigDB10_tasks]
  decide

set_option maxRecDepth 400000 in
/-- Witness for C10 at the concrete 2002-task dataset with a single
completed task. -/
theorem C10_partial_migration_witness :
    bigDB10.tasks.length > ARCHIVE_THRESHOLD ∧
    ((∀ m ∈ (archiveMigrate 7 bigDB10 emptyArc).2.tasks,
        m ∈ emptyArc.tasks ∨ m.completed = true) ∧
      (archiveMigrate 7 bigDB10 emptyArc).1.tasks =
        bigDB10.tasks.filter (fun t => !t.completed) ∧
      (archiveMigrate 7 bigDB10 emptyArc).2.tasks.length =
        emptyArc.tasks.length + (bigDB10.tasks.filter (fun t => t.completed)).length ∧
      (archiveMigrate 7 bigDB10 emptyArc).1.tasks.length > ARCHIVE_THRESHOLD) := by
  have hlen : bigDB10.tasks.length = 2002 := by
    rw [bigDB10_tasks, List.length_map, List.length_range]
  have hgt : bigDB10.tasks.length > ARCHIVE_THRESHOLD := by
    rw [hlen]
    decide
  refine ⟨hgt, C10_partial_migration 7 bigDB10 emptyArc hgt ?_ ?_⟩
  · rw [bigDB10_completed, hlen]
    decide
  · have hmap : bigDB10.tasks.map (fun t => t.id) = List.range 2002 := by
      rw [bigDB10_tasks, List.map_map]
      have hcomp : ((fun t : Task => t.id) ∘ mkTaskC10) = id := rfl
      rw [hcomp, List.map_id]
    rw [hmap]
    exact List.nodup_range 2002

/-! ### Structural lemmas for the reachability inductions (C4, C6) -/

theorem migrationMoveSet_subset (cur : DB) {t : Task}
    (h : t ∈ migrationMoveSet cur) : t ∈ cur.tasks := by
  unfold migrationMoveSet at h
  by_cases hgt : cur.tasks.length > ARCHIVE_THRESHOLD
  · rw [if_pos hgt] at h
    exact (List.mem_filter.mp (List.mem_mergeSort.mp (List.mem_of_mem_take h))).1
  · rw [if_neg hgt] at h
    cases h

theorem archiveMigrate_projects (now : Nat) (cur arc : DB) :
    (archiveMigrate now cur arc).1.projects = cur.projects ∧
    (archiveMigrate now cur arc).2.projects = arc.projects := by
  simp only [archiveMigrate]
  by_cases he : (migrationMoveSet cur).isEmpty = true
  · rw [if_pos he]
    exact ⟨rfl, rfl⟩
  · rw [if_neg he]
    exact ⟨rfl, rfl⟩

theorem archiveMigrate_mem_fst (now : Nat) (cur arc : DB) {t : Task}
    (h : t ∈ (archiveMigrate now cur arc).1.tasks) : t ∈ cur.tasks := by
  simp only [archiveMigrate] at h
  by_cases he : (migrationMoveSet cur).isEmpty = true
  · rw [if_pos he] at h
    exact h
  · rw [if_neg he] at h
    exact List.mem_of_mem_filter h

theorem archiveMigrate_mem_snd (now : Nat) (cur arc : DB) {t : Task}
    (h : t ∈ (archiveMigrate now cur arc).2.tasks) :
    t ∈ arc.tasks ∨ t ∈ cur.tasks := by
  simp only [archiveMigrate] at h
  by_cases he : (migrationMoveSet cur).isEmpty = true
  · rw [if_pos he] at h
    exact Or.inl h
  · rw [if_neg he] at h
    rcases List.mem_append.mp h with h | h
    · exact Or.inl h
    · exact Or.inr (migrationMoveSet_subset cur h)

theorem saveStep_current_projects (now : Nat) (st : St) :
    (saveStep now st).current.projects = st.current.projects :=
  (archiveMigrate_projects now st.current st.archive).1

theorem saveStep_archive_projects (now : Nat) (st : St) :
    (saveStep now st).archive.projects = st.archive.projects :=
  (archiveMigrate_projects now st.current st.archive).2

theorem saveStep_projIds (now : Nat) (st : St) :
    projIds (saveStep now st) = projIds st := by
  unfold projIds
  rw [saveStep_current_projects, saveStep_archive_projects]

theorem saveStep_mem_tasks (now : Nat) (st : St) {t : Task}
    (h : t ∈ (saveStep now st).current.tasks ++ (saveStep now st).archive.tasks) :
    t ∈ st.current.tasks ++ st.archive.tasks := by
  rcases List.mem_append.mp h with h | h
  · exact List.mem_append_left _ (archiveMigrate_mem_fst now _ _ h)
  · rcases archiveMigrate_mem_snd now _ _ h with h | h
    · exact List.mem_append_right _ h
    · exact List.mem_append_left _ h

theorem applyPatch_projectId (p : TaskPatch) (now : Nat) (t : Task) :
    (applyPatch p now t).projectId =
      (match p.projectId with | some s => s | none => t.projectId) := by
  unfold applyPatch
  cases p.title <;> cases p.description <;> cases p.projectId <;> cases p.dueDate <;>
    cases p.priority <;> cases p.tags <;> cases p.completed <;> rfl

theorem applyPatch_completed (p : TaskPatch) (now : Nat) (t : Task) :
    (applyPatch p now t).completed =
      (match p.completed with | some c => c | none => t.completed) := by
  unfold applyPatch
  cases p.title <;> cases p.description <;> cases p.projectId <;> cases p.dueDate <;>
    cases p.priority <;> cases p.tags <;> cases p.completed <;> rfl

theorem applyPatch_dateCompleted (p : TaskPatch) (now : Nat) (t : Task) :
    (applyPatch p now t).dateCompleted =
      (match p.completed with
        | some c => if c then some now else none
        | none => t.dateCompleted) := by
  unfold applyPatch
  cases p.title <;> cases p.description <;> cases p.projectId <;> cases p.dueDate <;>
    cases p.priority <;> cases p.tags <;> cases p.completed <;> rfl

theorem applyPatch_updatedAt (p : TaskPatch) (now : Nat) (t : Task) :
    (applyPatch p now t).updatedAt = now := by
  unfold applyPatch
  cases p.title <;> cases p.description <;> cases p.projectId <;> cases p.dueDate <;>
    cases p.priority <;> cases p.tags <;> cases p.completed <;> rfl

theorem projectAdd_eq {name pid : String} {now : Nat} {st st' : St} {pr : Project}
    (h : projectAdd name pid now st = some (st', pr)) :
    st' = { st with current.projects := st.current.projects ++ [pr] } := by
  simp only [projectAdd] at h
  by_cases h1 : jsTrim name = ""
  · rw [if_pos h1] at h
    simp at h
  · rw [if_neg h1] at h
    by_cases h2 : (st.current.projects ++ st.archive.projects).any
        (fun p => jsToLower p.name == jsToLower (jsTrim name)) = true
    · rw [if_pos h2] at h
      simp at h
    · rw [if_neg h2] at h
      simp only [Option.some.injEq, Prod.mk.injEq] at h
      rw [← h.1, ← h.2]

theorem projectRename_eq {id name : String} {st st' : St}
    (h : projectRename id name st = some st') :
    (st'.current.projects.map (fun p => p.id) =
        st.current.projects.map (fun p => p.id)) ∧
    (st'.archive.projects.map (fun p => p.id) =
        st.archive.projects.map (fun p => p.id)) ∧
    st'.current.tasks = st.current.tasks ∧
    st'.archive.tasks = st.archive.tasks := by
  have hmapid : ∀ l : List Project,
      (l.map (fun p => if p.id == id then { p with name := name } else p)).map
        (fun p => p.id) = l.map (fun p => p.id) := by
    intro l
    rw [List.map_map]
    apply List.map_congr_left
    intro q hq
    by_cases hqi : (q.id == id) = true
    · simp only [Function.comp_apply, if_pos hqi]
    · simp only [Function.comp_apply, if_neg hqi]
  simp only [projectRename] at h
  by_cases h1 : st.current.projects.any (fun p => p.id == id) = true
  · rw [if_pos h1] at h
    simp only [Option.some.injEq] at h
    rw [← h]
    exact ⟨hmapid _, rfl, rfl, rfl⟩
  · rw [if_neg h1] at h
    by_cases h2 : st.archive.projects.any (fun p => p.id == id) = true
    · rw [if_pos h2] at h
      simp only [Option.some.injEq] at h
      rw [← h]
      exact ⟨rfl, hmapid _, rfl, rfl⟩
    · rw [if_neg h2] at h
      simp at h

theorem projectDelete_eq {id : String} {st st' : St}
    (h : projectDelete id st = some st') :
    id ≠ "inbox" ∧
    st' = {
      current :=
        { st.current with
            tasks := st.current.tasks.map
              (fun t => if t.projectId = id then { t with projectId := "inbox" } else t)
            projects := st.current.projects.filter (fun p => !(p.id == id)) }
      archive :=
        { st.archive with
            tasks := st.archive.tasks.map
              (fun t => if t.projectId = id then { t with projectId := "inbox" } else t)
            projects := st.archive.projects.filter (fun p => !(p.id == id)) } } := by
  simp only [projectDelete] at h
  by_cases h1 : id = "inbox"
  · rw [if_pos h1] at h
    simp at h
  · rw [if_neg h1] at h
    simp only [Option.some.injEq] at h
    exact ⟨h1, h.symm⟩

theorem taskUpdate_eq {p : TaskPatch} {now : Nat} {st st' : St} {t' : Task}
    (h : taskUpdate p now st = some (st', t')) :
    (st'.current.tasks = st.current.tasks.map
        (fun u => if u.id == p.id then applyPatch p now u else u) ∧
      st'.archive.tasks = st.archive.tasks ∧
      st'.current.projects = st.current.projects ∧
      st'.archive.projects = st.archive.projects) ∨
    (st'.current.tasks = st.current.tasks ∧
      st'.archive.tasks = st.archive.tasks.map
        (fun u => if u.id == p.id then applyPatch p now u else u) ∧
      st'.current.projects = st.current.projects ∧
      st'.archive.projects = st.archive.projects) := by
  simp only [taskUpdate] at h
  cases hc : st.current.tasks.find? (fun t => t.id == p.id) with
  | some t =>
    rw [hc] at h
    simp only [Option.some.injEq, Prod.mk.injEq] at h
    rw [← h.1]
    exact Or.inl ⟨rfl, rfl, rfl, rfl⟩
  | none =>
    rw [hc] at h
    cases ha : st.archive.tasks.find? (fun t => t.id == p.id) with
    | some t =>
      rw [ha] at h
      simp only [Option.some.injEq, Prod.mk.injEq] at h
      rw [← h.1]
      exact Or.inr ⟨rfl, rfl, rfl, rfl⟩
    | none =>
      rw [ha] at h
      simp at h

theorem taskDelete_eq {id : Nat} {st st' : St}
    (h : taskDelete id st = some st') :
    st'.current.tasks = st.current.tasks.filter (fun t => !(t.id == id)) ∧
    st'.archive.tasks = st.archive.tasks.filter (fun t => !(t.id == id)) ∧
    st'.current.projects = st.current.projects ∧
    st'.archive.projects = st.archive.projects := by
  simp only [taskDelete] at h
  by_cases h1 : (st.current.tasks.filter (fun t => !(t.id == id))).length +
      (st.archive.tasks.filter (fun t => !(t.id == id))).length =
      st.current.tasks.length + st.archive.tasks.length
  · rw [if_pos h1] at h
    simp at h
  · rw [if_neg h1] at h
    simp only [Option.some.injEq] at h
    rw [← h]
    exact ⟨rfl, rfl, rfl, rfl⟩

theorem taskAdd_fst (input : TaskInput) (tid now : Nat) (st : St) :
    (taskAdd input tid now st).1 =
      { st with current.tasks :=
          st.current.tasks ++ [(taskAdd input tid now st).2] } := rfl

theorem taskAdd_snd_projectId (input : TaskInput) (tid now : Nat) (st : St) :
    (taskAdd input tid now st).2.projectId = resolveProjectId input.projectId := rfl

theorem projectAdd_components {name pid : String} {now : Nat} {st st' : St}
    {pr : Project} (h : projectAdd name pid now st = some (st', pr)) :
    st'.current.projects = st.current.projects ++ [pr] ∧
    st'.archive.projects = st.archive.projects ∧
    st'.current.tasks = st.current.tasks ∧
    st'.archive.tasks = st.archive.tasks := by
  rw [projectAdd_eq h]
  exact ⟨rfl, rfl, rfl, rfl⟩

theorem inbox_mem_filter {l : List Project}
    (h1 : "inbox" ∈ l.map (fun p => p.id)) {id : String} (hne : id ≠ "inbox") :
    "inbox" ∈ (l.filter (fun p => !(p.id == id))).map (fun p => p.id) := by
  obtain ⟨p, hp, hpid⟩ := List.mem_map.mp h1
  apply List.mem_map.mpr
  refine ⟨p, List.mem_filter.mpr ⟨hp, ?_⟩, hpid⟩
  have hf : (p.id == id) = false := by
    refine Bool.eq_false_iff.mpr ?_
    intro hb
    exact hne ((beq_iff_eq.mp hb).symm.trans hpid)
  simp [hf]

theorem inv_saveStep (now : Nat) (st : St) (h : Inv st) : Inv (saveStep now st) := by
  obtain ⟨h1, h2⟩ := h
  constructor
  · rw [saveStep_current_projects]
    exact h1
  · intro t ht
    rw [saveStep_projIds]
    exact h2 t (saveStep_mem_tasks now st ht)

theorem inv_projectAdd {name pid : String} {now : Nat} {st st' : St} {pr : Project}
    (h : Inv st) (hpa : projectAdd name pid now st = some (st', pr)) : Inv st' := by
  obtain ⟨hcp, hap, hct, hat⟩ := projectAdd_components hpa
  obtain ⟨h1, h2⟩ := h
  constructor
  · rw [hcp, List.map_append]
    exact List.mem_append_left _ h1
  · intro t ht
    rw [hct, hat] at ht
    have hold := h2 t ht
    unfold projIds at hold ⊢
    rw [hcp, hap]
    simp only [List.map_append, List.mem_append] at hold ⊢
    tauto

theorem inv_projectRename {id name : String} {st st' : St}
    (h : Inv st) (hpr : projectRename id name st = some st') : Inv st' := by
  obtain ⟨hc, ha, hct, hat⟩ := projectRename_eq hpr
  obtain ⟨h1, h2⟩ := h
  constructor
  · rw [hc]
    exact h1
  · intro t ht
    unfold projIds
    rw [List.map_append, hc, ha, ← List.map_append]
    apply h2
    rw [hct, hat] at ht
    exact ht

theorem inv_projectDelete {id : String} {st st' : St}
    (h : Inv st) (hpd : projectDelete id st = some st') : Inv st' := by
  obtain ⟨hne, hst⟩ := projectDelete_eq hpd
  obtain ⟨h1, h2⟩ := h
  subst hst
  have hinbox : "inbox" ∈
      (st.current.projects.filter (fun p => !(p.id == id))).map (fun p => p.id) :=
    inbox_mem_filter h1 hne
  have hsurv : ∀ pidv, pidv ∈ projIds st → pidv ≠ id →
      pidv ∈ ((st.current.projects.filter (fun p => !(p.id == id))) ++
        (st.archive.projects.filter (fun p => !(p.id == id)))).map (fun p => p.id) := by
    intro pidv hpv hneq
    unfold projIds at hpv
    obtain ⟨q, hq, rfl⟩ := List.mem_map.mp hpv
    apply List.mem_map.mpr
    refine ⟨q, ?_, rfl⟩
    have hqf : (q.id == id) = false :=
      Bool.eq_false_iff.mpr (fun hb => hneq (beq_iff_eq.mp hb))
    rcases List.mem_append.mp hq with h | h
    · exact List.mem_append_left _ (List.mem_filter.mpr ⟨h, by simp [hqf]⟩)
    · exact List.mem_append_right _ (List.mem_filter.mpr ⟨h, by simp [hqf]⟩)
  constructor
  · exact hinbox
  · intro t ht
    have hmain : ∀ u, u ∈ st.current.tasks ++ st.archive.tasks →
        (if u.projectId = id then { u with projectId := "inbox" } else u).projectId ∈
          ((st.current.projects.filter (fun p => !(p.id == id))) ++
            (st.archive.projects.filter (fun p => !(p.id == id)))).map (fun p => p.id) := by
      intro u hu
      by_cases hup : u.projectId = id
      · rw [if_pos hup]
        show "inbox" ∈ _
        rw [List.map_append]
        exact List.mem_append_left _ hinbox
      · rw [if_neg hup]
        exact hsurv u.projectId (h2 u hu) hup
    show t.projectId ∈ _
    rcases List.mem_append.mp ht with htc | hta
    · obtain ⟨u, hu, rfl⟩ := List.mem_map.mp htc
      exact hmain u (List.mem_append_left _ hu)
    · obtain ⟨u, hu, rfl⟩ := List.mem_map.mp hta
      exact hmain u (List.mem_append_right _ hu)

theorem inv_taskAdd {input : TaskInput} {tid now : Nat} {st : St}
    (h : Inv st) (hg : resolveProjectId input.projectId ∈ projIds st) :
    Inv (taskAdd input tid now st).1 := by
  obtain ⟨h1, h2⟩ := h
  rw [taskAdd_fst]
  constructor
  · exact h1
  · intro t ht
    have ht' : t ∈ (st.current.tasks ++ [(taskAdd input tid now st).2]) ++
        st.archive.tasks := ht
    show t.projectId ∈ projIds st
    rcases List.mem_append.mp ht' with htc | hta
    · rcases List.mem_append.mp htc with hold | hnew
      · exact h2 t (List.mem_append_left _ hold)
      · rw [List.mem_singleton.mp hnew, taskAdd_snd_projectId]
        exact hg
    · exact h2 t (List.mem_append_right _ hta)

theorem inv_taskUpdate {p : TaskPatch} {now : Nat} {st st' : St} {t' : Task}
    (h : Inv st) (hg : ∀ pidv, p.projectId = some pidv → pidv ∈ projIds st)
    (hu : taskUpdate p now st = some (st', t')) : Inv st' := by
  obtain ⟨h1, h2⟩ := h
  have happly : ∀ u, u ∈ st.current.tasks ++ st.archive.tasks →
      (applyPatch p now u).projectId ∈ projIds st := by
    intro u hu'
    rw [applyPatch_projectId]
    cases hp : p.projectId with
    | some s => exact hg s hp
    | none => exact h2 u hu'
  have hcond : ∀ u, u ∈ st.current.tasks ++ st.archive.tasks →
      (if u.id == p.id then applyPatch p now u else u).projectId ∈ projIds st := by
    intro u hu'
    by_cases hid : (u.id == p.id) = true
    · rw [if_pos hid]
      exact happly u hu'
    · rw [if_neg hid]
      exact h2 u hu'
  rcases taskUpdate_eq hu with ⟨hct, hat, hcp, hap⟩ | ⟨hct, hat, hcp, hap⟩ <;>
  · have hpids : projIds st' = projIds st := by
      unfold projIds
      rw [hcp, hap]
    refine ⟨by rw [hcp]; exact h1, ?_⟩
    intro t ht
    rw [hpids]
    rw [hct, hat] at ht
    rcases List.mem_append.mp ht with hm | hm
    first
    | · obtain ⟨u, hu', rfl⟩ := List.mem_map.mp hm
        exact hcond u (List.mem_append_left _ hu')
      · exact h2 t (List.mem_append_right _ hm)
    | · exact h2 t (List.mem_append_left _ hm)
      · obtain ⟨u, hu', rfl⟩ := List.mem_map.mp hm
        exact hcond u (List.mem_append_right _ hu')

theorem inv_taskDelete {id : Nat} {st st' : St}
    (h : Inv st) (hd : taskDelete id st = some st') : Inv st' := by
  obtain ⟨hct, hat, hcp, hap⟩ := taskDelete_eq hd
  obtain ⟨h1, h2⟩ := h
  have hpids : projIds st' = projIds st := by
    unfold projIds
    rw [hcp, hap]
  refine ⟨by rw [hcp]; exact h1, ?_⟩
  intro t ht
  rw [hpids]
  rw [hct, hat] at ht
  rcases List.mem_append.mp ht with hm | hm
  · exact h2 t (List.mem_append_left _ (List.mem_of_mem_filter hm))
  · exact h2 t (List.mem_append_right _ (List.mem_of_mem_filter hm))

theorem greachable_inv {st : St} (h : GReachable st) : Inv st := by
  induction h with
  | init t0 =>
    constructor
    · simp [initSt, defaultDB]
    · intro t ht
      simp [initSt, defaultDB] at ht
  | projectAdd name pid now now' hst hpa ih =>
    exact inv_saveStep _ _ (inv_projectAdd ih hpa)
  | projectRename id name now' hst hpr ih =>
    exact inv_saveStep _ _ (inv_projectRename ih hpr)
  | projectDelete id now' hst hpd ih =>
    exact inv_saveStep _ _ (inv_projectDelete ih hpd)
  | taskAdd input tid now now' hst hg ih =>
    exact inv_saveStep _ _ (inv_taskAdd ih hg)
  | taskUpdate p now now' hst hg hu ih =>
    exact inv_saveStep _ _ (inv_taskUpdate ih hg hu)
  | taskDelete id now' hst hd ih =>
    exact inv_saveStep _ _ (inv_taskDelete ih hd)

theorem reachable_inbox {st : St} (h : Reachable st) :
    "inbox" ∈ st.current.projects.map (fun p => p.id) := by
  induction h with
  | init t0 => simp [initSt, defaultDB]
  | projectAdd name pid now now' hst hpa ih =>
    rw [saveStep_current_projects, (projectAdd_components hpa).1, List.map_append]
    exact List.mem_append_left _ ih
  | projectRename id name now' hst hpr ih =>
    rw [saveStep_current_projects, (projectRename_eq hpr).1]
    exact ih
  | projectDelete id now' hst hpd ih =>
    obtain ⟨hne, hstq⟩ := projectDelete_eq hpd
    rw [saveStep_current_projects, hstq]
    exact inbox_mem_filter ih hne
  | taskAdd input tid now now' hst ih =>
    rw [saveStep_current_projects, taskAdd_fst]
    exact ih
  | taskUpdate p now now' hst hu ih =>
    rcases taskUpdate_eq hu with ⟨_, _, hcp, _⟩ | ⟨_, _, hcp, _⟩ <;>
      (rw [saveStep_current_projects, hcp]; exact ih)
  | taskDelete id now' hst hd ih =>
    rw [saveStep_current_projects, (taskDelete_eq hd).2.2.1]
    exact ih

theorem applyPatch_taskInv (p : TaskPatch) (now : Nat) (t : Task)
    (h : t.completed = false → t.dateCompleted = none) :
    (applyPatch p now t).completed = false → (applyPatch p now t).dateCompleted = none := by
  rw [applyPatch_completed, applyPatch_dateCompleted]
  cases hc : p.completed with
  | some c =>
    intro h1
    cases c
    · simp
    · simp at h1
  | none => exact h

theorem reachable_taskInv {st : St} (h : Reachable st) :
    ∀ t ∈ st.current.tasks ++ st.archive.tasks,
      t.completed = false → t.dateCompleted = none := by
  induction h with
  | init t0 =>
    intro t ht
    simp [initSt, defaultDB] at ht
  | projectAdd name pid now now' hst hpa ih =>
    intro t ht
    obtain ⟨_, _, hct, hat⟩ := projectAdd_components hpa
    have ht' := saveStep_mem_tasks _ _ ht
    rw [hct, hat] at ht'
    exact ih t ht'
  | projectRename id name now' hst hpr ih =>
    intro t ht
    obtain ⟨_, _, hct, hat⟩ := projectRename_eq hpr
    have ht' := saveStep_mem_tasks _ _ ht
    rw [hct, hat] at ht'
    exact ih t ht'
  | projectDelete id now' hst hpd ih =>
    rename_i st stq
    intro t ht
    obtain ⟨hne, hstq⟩ := projectDelete_eq hpd
    have ht' := saveStep_mem_tasks _ _ ht
    rw [hstq] at ht'
    have hg : ∀ u, u ∈ st.current.tasks ++ st.archive.tasks →
        t = (if u.projectId = id then { u with projectId := "inbox" } else u) →
        t.completed = false → t.dateCompleted = none := by
      intro u hu heq
      by_cases hup : u.projectId = id
      · rw [if_pos hup] at heq
        subst heq
        exact ih u hu
      · rw [if_neg hup] at heq
        subst heq
        exact ih _ hu
    rcases List.mem_append.mp ht' with hm | hm
    · obtain ⟨u, hu, hgu⟩ := List.mem_map.mp hm
      exact hg u (List.mem_append_left _ hu) hgu.symm
    · obtain ⟨u, hu, hgu⟩ := List.mem_map.mp hm
      exact hg u (List.mem_append_right _ hu) hgu.symm
  | taskAdd input tid now now' hst ih =>
    rename_i st
    intro t ht
    have ht' := saveStep_mem_tasks _ _ ht
    rw [taskAdd_fst] at ht'
    have ht'' : t ∈ (st.current.tasks ++ [(taskAdd input tid now st).2]) ++
        st.archive.tasks := ht'
    rcases List.mem_append.mp ht'' with hm | hm
    · rcases List.mem_append.mp hm with hold | hnew
      · exact ih t (List.mem_append_left _ hold)
      · rw [List.mem_singleton.mp hnew]
        intro _
        rfl
    · exact ih t (List.mem_append_right _ hm)
  | taskUpdate p now now' hst hu ih =>
    rename_i st stq tq
    intro t ht
    have ht' := saveStep_mem_tasks _ _ ht
    have hg : ∀ u, u ∈ st.current.tasks ++ st.archive.tasks →
        t = (if u.id == p.id then applyPatch p now u else u) →
        t.completed = false → t.dateCompleted = none := by
      intro u hu' heq
      by_cases hid : (u.id == p.id) = true
      · rw [if_pos hid] at heq
        subst heq
        exact applyPatch_taskInv p now u (ih u hu')
      · rw [if_neg hid] at heq
        subst heq
        exact ih _ hu'
    rcases taskUpdate_eq hu with ⟨hct, hat, _, _⟩ | ⟨hct, hat, _, _⟩
    · rw [hct, hat] at ht'
      rcases List.mem_append.mp ht' with hm | hm
      · obtain ⟨u, hu', hgu⟩ := List.mem_map.mp hm
        exact hg u (List.mem_append_left _ hu') hgu.symm
      · exact ih t (List.mem_append_right _ hm)
    · rw [hct, hat] at ht'
      rcases List.mem_append.mp ht' with hm | hm
      · exact ih t (List.mem_append_left _ hm)
      · obtain ⟨u, hu', hgu⟩ := List.mem_map.mp hm
        exact hg u (List.mem_append_right _ hu') hgu.symm
  | taskDelete id now' hst hd ih =>
    intro t ht
    obtain ⟨hct, hat, _, _⟩ := taskDelete_eq hd
    have ht' := saveStep_mem_tasks _ _ ht
    rw [hct, hat] at ht'
    rcases List.mem_append.mp ht' with hm | hm
    · exact ih t (List.mem_append_left _ (List.mem_of_mem_filter hm))
    · exact ih t (List.mem_append_right _ (List.mem_of_mem_filter hm))

/-! ### Claim C4: referential integrity and the inbox project -/

/-- C4 amended: in every state reachable through the exposed
operations the `inbox` project exists in the active dataset and
`project:delete` refuses to delete it, and the referential invariant
(every task references a project present in the union of both
datasets) holds in every state reachable when `task:add` and
`task:update` are invoked with project ids present in that union; the
handlers themselves do not validate the incoming `projectId`, so
unrestricted calls can break the invariant (see the
counterexample). -/
theorem C4_referential_integrity :
    (∀ st, Reachable st → "inbox" ∈ st.current.projects.map (fun p => p.id)) ∧
    (∀ st, projectDelete "inbox" st = none) ∧
    (∀ st, GReachable st → Inv st) :=
  ⟨fun _ h => reachable_inbox h,
   fun st => by simp [projectDelete],
   fun _ h => greachable_inv h⟩

/-- Witness for C4 at the initial state. -/
theorem C4_referential_integrity_witness :
    "inbox" ∈ (initSt 0).current.projects.map (fun p => p.id) ∧
    projectDelete "inbox" (initSt 0) = none ∧
    Inv (initSt 0) :=
  ⟨C4_referential_integrity.1 (initSt 0) (Reachable.init 0),
   C4_referential_integrity.2.1 (initSt 0),
   C4_referential_integrity.2.2 (initSt 0) (GReachable.init 0)⟩

/-- Input of an exposed `task:add` call whose `projectId` references
no existing project. -/
def ghostInput : TaskInput :=
  { title := some "t", description := none, projectId := some "ghost"
    dueDate := none, priority := none, tags := none }

/-- State reached by one exposed `task:add` call with a dangling
`projectId`. -/
def ghostSt : St := saveStep 5 (taskAdd ghostInput 1 5 (initSt 0)).1

/-- Counterexample to C4 as stated: `task:add` does not validate the
incoming `projectId`, so a state reachable through the exposed
operations violates the referential invariant. -/
theorem C4_referential_integrity_counterexample :
    Reachable ghostSt ∧ ¬ Inv ghostSt :=
  ⟨Reachable.taskAdd ghostInput 1 5 5 (Reachable.init 0), by decide⟩

/-! ### Claim C6: completed versus dateCompleted -/

/-- C6 amended: in every reachable state every task satisfies
completed=false → dateCompleted=null; a patch without the `completed`
field leaves `completed` and `dateCompleted` unchanged; a patch with
`completed` present sets `dateCompleted` to the current time or clears
it according to the new value, whether or not that value differs from
the old one (see the counterexample for the re-assertion case); and
`updatedAt` is always refreshed. -/
theorem C6_completed_dateCompleted :
    (∀ st, Reachable st → ∀ t ∈ st.current.tasks ++ st.archive.tasks,
      t.completed = false → t.dateCompleted = none) ∧
    (∀ (p : TaskPatch) (now : Nat) (t : Task), p.completed = none →
      (applyPatch p now t).completed = t.completed ∧
      (applyPatch p now t).dateCompleted = t.dateCompleted) ∧
    (∀ (p : TaskPatch) (now : Nat) (t : Task) (c : Bool), p.completed = some c →
      (applyPatch p now t).completed = c ∧
      (applyPatch p now t).dateCompleted = (if c then some now else none)) ∧
    (∀ (p : TaskPatch) (now : Nat) (t : Task), (applyPatch p now t).updatedAt = now) := by
  refine ⟨fun _ h => reachable_taskInv h, ?_, ?_, fun p now t => applyPatch_updatedAt p now t⟩
  · intro p now t hc
    rw [applyPatch_completed, applyPatch_dateCompleted, hc]
    exact ⟨rfl, rfl⟩
  · intro p now t c hc
    rw [applyPatch_completed, applyPatch_dateCompleted, hc]
    exact ⟨rfl, rfl⟩

/-- Witness for C6 at the initial state and a concrete patch. -/
theorem C6_completed_dateCompleted_witness :
    (∀ t ∈ (initSt 0).current.tasks ++ (initSt 0).archive.tasks,
      t.completed = false → t.dateCompleted = none) ∧
    ((applyPatch { id := 1, title := none, description := none, projectId := none
                   dueDate := none, priority := none, tags := none, completed := none }
        9 (mkTaskC2 0)).dateCompleted = (mkTaskC2 0).dateCompleted) :=
  ⟨C6_completed_dateCompleted.1 (initSt 0) (Reachable.init 0),
   (C6_completed_dateCompleted.2.1
     { id := 1, title := none, description := none, projectId := none
       dueDate := none, priority := none, tags := none, completed := none }
     9 (mkTaskC2 0) rfl).2⟩

/-- Task used by the C6 counterexample: already completed at time 100. -/
def doneTask : Task :=
  { id := 1, title := "t", description := "", projectId := "inbox", dueDate := none
    priority := 0, tags := [], completed := true, dateCompleted := some 100
    createdAt := 0, updatedAt := 0 }

/-- Patch used by the C6 counterexample: re-asserts completed=true. -/
def reassertPatch : TaskPatch :=
  { id := 1, title := none, description := none, projectId := none
    dueDate := none, priority := none, tags := none, completed := some true }

/-- Counterexample to C6 as stated: a patch that does not change the
`completed` field (it re-asserts the current value true) nevertheless
overwrites `dateCompleted` with the present clock reading. -/
theorem C6_completed_dateCompleted_counterexample :
    reassertPatch.completed = some doneTask.completed ∧
    (applyPatch reassertPatch 200 doneTask).completed = doneTask.completed ∧
    (applyPatch reassertPatch 200 doneTask).dateCompleted ≠ doneTask.dateCompleted := by
  refine ⟨by decide, by decide, by decide⟩

/-! ### Claim C1: unlock with a secret -/

theorem unlock_passcode {st : AppState} {pc salt : String} (bioAvail promptOk : Bool)
    (henc : st.settings.encryptionEnabled = true)
    (hsalt : st.settings.kdf.salt = some salt) :
    (securityUnlock (some pc) bioAvail promptOk st).1 = .okPasscode ∧
    (securityUnlock (some pc) bioAvail promptOk st).2.sessionKey =
      some { pass := pc, salt := salt } ∧
    (securityUnlock (some pc) bioAvail promptOk st).2.settings = st.settings ∧
    (securityUnlock (some pc) bioAvail promptOk st).2.dbFile = st.dbFile ∧
    (securityUnlock (some pc) bioAvail promptOk st).2.archiveFile = st.archiveFile := by
  have hkey : deriveKey pc st.settings = some { pass := pc, salt := salt } := by
    simp [deriveKey, hsalt]
  by_cases hb : (st.settings.useBiometrics && bioAvail) = true
  · simp [securityUnlock, henc, hkey, hb]
  · simp [securityUnlock, henc, hkey,
      Bool.eq_false_iff.mpr (fun h => hb h)]

theorem loadAllData_enc_ok {st : AppState} {k : Key} {db : DB} (t0 : Nat)
    (henc : st.settings.encryptionEnabled = true)
    (hdb : st.dbFile = some (.enc { key := k, payload := db }))
    (harc : st.archiveFile = none)
    (hkey : st.sessionKey = some k) :
    exceptOk (loadAllData t0 st) = true := by
  simp [loadAllData, readJSONFile, henc, hdb, harc, hkey, decryptFile, exceptOk]

theorem loadAllData_enc_wrongkey {st : AppState} {k k' : Key} {db : DB} (t0 : Nat)
    (henc : st.settings.encryptionEnabled = true)
    (hdb : st.dbFile = some (.enc { key := k, payload := db }))
    (hkey : st.sessionKey = some k')
    (hne : k ≠ k') :
    loadAllData t0 st = .error "AuthenticationError" := by
  simp [loadAllData, readJSONFile, henc, hdb, hkey, decryptFile, hne]

/-- C1 amended: with encryption enabled, the active dataset encrypted
under the key derived from secret pc0, and any secret supplied,
`security:unlock` performs no validation of the candidate key against
the stored data: it derives the key, stores it as the session key and
reports ok(method=passcode).  With the correct secret the subsequent
`load()` succeeds; with an incorrect secret the call still reports ok
and stores the wrongly derived key, and the mistake surfaces only when
a subsequent `load()` fails with AuthenticationError — no `WrongSecret`
result is ever produced by unlock. -/
theorem C1_unlock_no_validation (st : AppState) (pc0 pc salt : String) (db : DB)
    (t0 : Nat) (ba po : Bool)
    (henc : st.settings.encryptionEnabled = true)
    (hsalt : st.settings.kdf.salt = some salt)
    (hdb : st.dbFile = some (.enc { key := { pass := pc0, salt := salt }, payload := db }))
    (harc : st.archiveFile = none) :
    ((securityUnlock (some pc0) ba po st).1 = .okPasscode ∧
      (securityUnlock (some pc0) ba po st).2.sessionKey =
        some { pass := pc0, salt := salt } ∧
      exceptOk (loadAllData t0 (securityUnlock (some pc0) ba po st).2) = true) ∧
    (pc ≠ pc0 →
      (securityUnlock (some pc) ba po st).1 = .okPasscode ∧
      (securityUnlock (some pc) ba po st).2.sessionKey =
        some { pass := pc, salt := salt } ∧
      loadAllData t0 (securityUnlock (some pc) ba po st).2 =
        .error "AuthenticationError") := by
  obtain ⟨hr0, hk0, hs0, hd0, ha0⟩ := @unlock_passcode st pc0 salt ba po henc hsalt
  obtain ⟨hr1, hk1, hs1, hd1, ha1⟩ := @unlock_passcode st pc salt ba po henc hsalt
  constructor
  · refine ⟨hr0, hk0, ?_⟩
    apply loadAllData_enc_ok t0
    · rw [hs0]
      exact henc
    · rw [hd0]
      exact hdb
    · rw [ha0]
      exact harc
    · exact hk0
  · intro hne
    refine ⟨hr1, hk1, ?_⟩
    apply loadAllData_enc_wrongkey t0
    · rw [hs1]
      exact henc
    · rw [hd1]
      exact hdb
    · exact hk1
    · intro he
      apply hne
      have : pc = pc0 := by
        have := congrArg Key.pass he
        exact this.symm
      exact this

/-- Process state for the C1 witness and counterexample: encryption
enabled with salt "s", active dataset encrypted under the key derived
from secret "a", locked session. -/
def lockedApp : AppState :=
  { settings :=
      { version := 1, encryptionEnabled := true, useBiometrics := false
        kdf := { algo := "scrypt", N := 16384, r := 8, p := 1, keyLen := 32
                 salt := some "s" } }
    dbFile := some (.enc { key := { pass := "a", salt := "s" }, payload := defaultDB 0 })
    archiveFile := none
    escrow := none
    sessionKey := none }

/-- Counterexample to C1 as stated: unlocking with the wrong secret
"b" does not validate the key, does not stay locked and does not
return WrongSecret — it reports ok(method=passcode) and stores the
wrong session key; only the subsequent load fails. -/
theorem C1_unlock_no_validation_counterexample :
    (securityUnlock (some "b") false false lockedApp).1 = .okPasscode ∧
    (securityUnlock (some "b") false false lockedApp).2.sessionKey ≠ none ∧
    loadAllData 0 (securityUnlock (some "b") false false lockedApp).2 =
      .error "AuthenticationError" := by
  refine ⟨by decide, by decide, by rfl⟩

/-- Witness for C1 at the concrete locked state. -/
theorem C1_unlock_no_validation_witness :
    lockedApp.settings.encryptionEnabled = true ∧ (("b" : String) ≠ "a") ∧
    (((securityUnlock (some "a") false false lockedApp).1 = .okPasscode ∧
      (securityUnlock (some "a") false false lockedApp).2.sessionKey =
        some { pass := "a", salt := "s" } ∧
      exceptOk (loadAllData 0 (securityUnlock (some "a") false false lockedApp).2) = true) ∧
    (("b" : String) ≠ "a" →
      (securityUnlock (some "b") false false lockedApp).1 = .okPasscode ∧
      (securityUnlock (some "b") false false lockedApp).2.sessionKey =
        some { pass := "b", salt := "s" } ∧
      loadAllData 0 (securityUnlock (some "b") false false lockedApp).2 =
        .error "AuthenticationError")) :=
  ⟨rfl, by decide,
   C1_unlock_no_validation lockedApp "a" "b" "s" (defaultDB 0) 0 false false
     rfl rfl rfl rfl⟩

end PrivateTodo
